import Mathlib

/-!
Verification development for the cooltools core numerical routines
(`cooltools/lib/numutils.py` and `cooltools/insulation.py`).

The Python source is shallowly embedded:
- machine floats are modelled as exact rationals; where IEEE non-finite
  values (NaN from empty-slice means, and their products/quotients) are
  essential to the behaviour under study, values are modelled as
  `Option Rat` with `none` standing for a non-finite value;
- numpy arrays become Lean lists or index functions;
- the in-place loops of the source become pure state-passing functions;
  each definition mirrors the corresponding Python function statement by
  statement, as noted in its doc comment.
-/

/-! ### Section 1: the Lazy Toeplitz matrix (`LazyToeplitz.__getitem__`)

`LazyToeplitz` holds a first column `C` and first row `R` (with
`C[0] == R[0]` checked by `__init__`).  `__getitem__` unpacks the query
into ranges `[i0,i1) x [j0,j1)` (the unpacking itself is done by the
external `cooler.core._IndexingMixin`, out of scope per the spec), builds
two 1-D vectors `c`, `r` with numpy slicing, and returns
`scipy.linalg.toeplitz(c, r)`.
-/

/-- Python slice `l[a:b]` for nonnegative `a`, `b` (clipping to the list
length is automatic). -/
def pySlice (l : List Int) (a b : Nat) : List Int :=
  (l.drop a).take (b - a)

/-- Python slice `l[start:stop:-1]` for nonnegative `start`, `stop`:
the elements at indices `start, start-1, ..., stop+1` (empty when
`start <= stop`).  In the source the stop argument is `max(0, j0-i1)`,
which coincides with truncated natural subtraction. -/
def pySliceRevNeg (l : List Int) (start stop : Nat) : List Int :=
  (List.range (start - stop)).map (fun t => l.getD (start - t) 0)

/-- Entry `(a, b)` of `scipy.linalg.toeplitz(c, r)`:
`c[a-b]` on and below the diagonal, `r[b-a]` above it (`r[0]` is
ignored, the corner comes from `c[0]`). -/
def toeplitzEntry (c r : List Int) (a b : Nat) : Int :=
  if b ≤ a then c.getD (a - b) 0 else r.getD (b - a) 0

/-- The pair `(c, r)` built by the asymmetric-query branch of
`LazyToeplitz.__getitem__` when no transposition is needed
(`j0 >= i0`):
`c = np.r_[R[(j0-i0) : max(0,j0-i1) : -1], C[0 : max(0,i1-j0)]]` and
`r = R[(j0-i0) : (j1-i0)]`.  Python `max(0, .)` on an integer
difference is truncated natural subtraction. -/
def asymCR (C R : List Int) (i0 i1 j0 j1 : Nat) : List Int × List Int :=
  (pySliceRevNeg R (j0 - i0) (j0 - i1) ++ pySlice C 0 (i1 - j0),
   pySlice R (j0 - i0) (j1 - i0))

/-- `LazyToeplitz.__getitem__` materialising the block
`[i0,i1) x [j0,j1)`, as the function giving entry `(a, b)` of the block
(0-indexed within the block).  Mirrors the source dispatch: symmetric
query, transposed (tril) query — which swaps `(C, R)` and the two
ranges, solves, and swaps `c, r` back (transposing the Toeplitz
expansion) — and the direct asymmetric query. -/
def lazyToeplitzGet (C R : List Int) (i0 i1 j0 j1 : Nat) : Nat → Nat → Int :=
  if i0 = j0 ∧ i1 = j1 then
    toeplitzEntry (pySlice C 0 (i1 - i0)) (pySlice R 0 (j1 - j0))
  else if j0 < i0 ∨ (i0 = j0 ∧ i1 < j1) then
    let p := asymCR R C j0 j1 i0 i1
    toeplitzEntry p.2 p.1
  else
    let p := asymCR C R i0 i1 j0 j1
    toeplitzEntry p.1 p.2

/-- The dense matrix represented by the pair `(C, R)`:
`full_matrix[i,j] = C[i-j]` if `i >= j` else `R[j-i]`. -/
def fullMatrix (C R : List Int) (i j : Nat) : Int :=
  if j ≤ i then C.getD (i - j) 0 else R.getD (j - i) 0

lemma getD_pySlice (l : List Int) (a b k : Nat) (h : k < b - a) :
    (pySlice l a b).getD k 0 = l.getD (a + k) 0 := by
  simp only [pySlice, List.getD_eq_getElem?_getD]
  rw [List.getElem?_take, if_pos h, List.getElem?_drop]

lemma getD_pySliceRevNeg (l : List Int) (start stop k : Nat)
    (h : k < start - stop) :
    (pySliceRevNeg l start stop).getD k 0 = l.getD (start - k) 0 := by
  simp only [pySliceRevNeg, List.getD_eq_getElem?_getD, List.getElem?_map]
  rw [List.getElem?_range h]
  rfl

lemma length_pySliceRevNeg (l : List Int) (start stop : Nat) :
    (pySliceRevNeg l start stop).length = start - stop := by
  simp [pySliceRevNeg]

/-- Correctness of the non-transposed asymmetric branch:
the Toeplitz expansion of the two assembled vectors reproduces the
full-matrix block. -/
lemma asymCR_correct (C R : List Int) (i0 i1 j0 j1 a b : Nat)
    (hij : i0 ≤ j0) (ha : a < i1 - i0) (hb : b < j1 - j0) :
    toeplitzEntry (asymCR C R i0 i1 j0 j1).1 (asymCR C R i0 i1 j0 j1).2 a b
      = fullMatrix C R (i0 + a) (j0 + b) := by
  have hi01 : i0 < i1 := by omega
  have hj01 : j0 < j1 := by omega
  unfold toeplitzEntry asymCR fullMatrix
  by_cases hba : b ≤ a
  · rw [if_pos hba]
    set t := a - b with ht
    have hL : (pySliceRevNeg R (j0 - i0) (j0 - i1)).length
        = (j0 - i0) - (j0 - i1) := length_pySliceRevNeg ..
    by_cases hrev : t < (j0 - i0) - (j0 - i1)
    · -- entry comes from the reversed slice of `R`; block lies above the diagonal here
      rw [List.getD_eq_getElem?_getD, List.getElem?_append_left (by omega),
        ← List.getD_eq_getElem?_getD, getD_pySliceRevNeg _ _ _ _ hrev]
      have hup : ¬ (j0 + b ≤ i0 + a) := by omega
      rw [if_neg hup]
      congr 1
      omega
    · -- entry comes from the prefix of `C`; block lies on or below the diagonal here
      have htd : (j0 - i0) ≤ t ∧ (j0 - i0) - (j0 - i1) = j0 - i0 := by omega
      rw [List.getD_eq_getElem?_getD, List.getElem?_append_right (by omega),
        ← List.getD_eq_getElem?_getD, hL]
      rw [getD_pySlice _ _ _ _ (by omega)]
      have hlow : j0 + b ≤ i0 + a := by omega
      rw [if_pos hlow]
      congr 1
      omega
  · rw [if_neg hba]
    rw [getD_pySlice _ _ _ _ (by omega)]
    have hup : ¬ (j0 + b ≤ i0 + a) := by omega
    rw [if_neg hup]
    congr 1
    omega

/-- Correctness of the symmetric-query branch. -/
lemma symQuery_correct (C R : List Int) (i0 i1 j0 j1 a b : Nat)
    (h0 : i0 = j0) (ha : a < i1 - i0) (hb : b < j1 - j0) :
    toeplitzEntry (pySlice C 0 (i1 - i0)) (pySlice R 0 (j1 - j0)) a b
      = fullMatrix C R (i0 + a) (j0 + b) := by
  subst h0
  unfold toeplitzEntry fullMatrix
  by_cases hba : b ≤ a
  · rw [if_pos hba, if_pos (by omega), getD_pySlice _ _ _ _ (by omega)]
    congr 1
    omega
  · rw [if_neg hba, if_neg (by omega), getD_pySlice _ _ _ _ (by omega)]
    congr 1
    omega

lemma fullMatrix_transpose (C R : List Int) (i j : Nat)
    (h0 : C.getD 0 0 = R.getD 0 0) :
    fullMatrix R C j i = fullMatrix C R i j := by
  unfold fullMatrix
  rcases Nat.lt_trichotomy i j with h | h | h
  · rw [if_pos (by omega), if_neg (by omega)]
  · subst h
    rw [if_pos (le_refl i), if_pos (le_refl i), Nat.sub_self]
    exact h0.symm
  · rw [if_neg (by omega), if_pos (by omega)]

/-- General correctness of `LazyToeplitz.__getitem__`: every entry of the
materialised block `[i0,i1) x [j0,j1)` agrees with the represented full
matrix. -/
theorem lazyToeplitzGet_correct (C R : List Int) (i0 i1 j0 j1 a b : Nat)
    (h0 : C.getD 0 0 = R.getD 0 0)
    (_hC : i1 ≤ C.length) (_hR : j1 ≤ R.length)
    (ha : a < i1 - i0) (hb : b < j1 - j0) :
    lazyToeplitzGet C R i0 i1 j0 j1 a b = fullMatrix C R (i0 + a) (j0 + b) := by
  unfold lazyToeplitzGet
  split_ifs with h1 h2
  · exact symQuery_correct C R i0 i1 j0 j1 a b h1.1 ha hb
  · -- transposed (tril) branch
    have hij : j0 ≤ i0 := by rcases h2 with h | h; omega; omega
    by_cases hab : a = b
    · subst hab
      show toeplitzEntry (asymCR R C j0 j1 i0 i1).2 (asymCR R C j0 j1 i0 i1).1 a a
        = fullMatrix C R (i0 + a) (j0 + a)
      unfold toeplitzEntry asymCR
      rw [if_pos (le_refl a), Nat.sub_self,
        getD_pySlice _ _ _ _ (by omega)]
      unfold fullMatrix
      rw [if_pos (by omega)]
      congr 1
      omega
    · have key := asymCR_correct R C j0 j1 i0 i1 b a hij hb ha
      show toeplitzEntry (asymCR R C j0 j1 i0 i1).2 (asymCR R C j0 j1 i0 i1).1 a b
        = fullMatrix C R (i0 + a) (j0 + b)
      rw [← fullMatrix_transpose C R (i0 + a) (j0 + b) h0, ← key]
      unfold toeplitzEntry
      rcases Nat.lt_or_ge a b with h | h
      · rw [if_neg (by omega), if_pos (by omega)]
      · rw [if_pos (by omega), if_neg (by omega)]
  · -- direct asymmetric branch
    have hij : i0 ≤ j0 := by
      rcases Nat.lt_or_ge j0 i0 with h | h
      · exact absurd (Or.inl h) h2
      · exact h
    exact asymCR_correct C R i0 i1 j0 j1 a b hij ha hb

/-- C1: Toeplitz materialisation correctness.  The general statement of
the claim holds: every in-bounds query block agrees with
`full_matrix[i,j] = C[i-j]` if `i >= j` else `R[j-i]`.  For the literal
case `C=[1,2,3,4]`, `R=[1,5,6,7]`, the block `[0:2,0:2]` is
`[[1,5],[2,1]]` as claimed, while the block `[2:4,0:2]` is
`[[3,2],[4,3]]` — not `[[3,6],[4,3]]` as the claim asserts (its entry
`(0,1)` is `C[1] = 2`, consistent with the claim's own full-matrix
formula). -/
theorem claim1_toeplitz_block :
    (∀ C R : List Int, ∀ i0 i1 j0 j1 a b : Nat,
      C.getD 0 0 = R.getD 0 0 → i1 ≤ C.length → j1 ≤ R.length →
      a < i1 - i0 → b < j1 - j0 →
      lazyToeplitzGet C R i0 i1 j0 j1 a b = fullMatrix C R (i0 + a) (j0 + b))
    ∧ (lazyToeplitzGet [1,2,3,4] [1,5,6,7] 0 2 0 2 0 0 = 1
        ∧ lazyToeplitzGet [1,2,3,4] [1,5,6,7] 0 2 0 2 0 1 = 5
        ∧ lazyToeplitzGet [1,2,3,4] [1,5,6,7] 0 2 0 2 1 0 = 2
        ∧ lazyToeplitzGet [1,2,3,4] [1,5,6,7] 0 2 0 2 1 1 = 1)
    ∧ (lazyToeplitzGet [1,2,3,4] [1,5,6,7] 2 4 0 2 0 0 = 3
        ∧ lazyToeplitzGet [1,2,3,4] [1,5,6,7] 2 4 0 2 0 1 = 2
        ∧ lazyToeplitzGet [1,2,3,4] [1,5,6,7] 2 4 0 2 1 0 = 4
        ∧ lazyToeplitzGet [1,2,3,4] [1,5,6,7] 2 4 0 2 1 1 = 3) := by
  refine ⟨fun C R i0 i1 j0 j1 a b h0 hC hR ha hb =>
    lazyToeplitzGet_correct C R i0 i1 j0 j1 a b h0 hC hR ha hb, ?_, ?_⟩
  · exact ⟨by decide, by decide, by decide, by decide⟩
  · exact ⟨by decide, by decide, by decide, by decide⟩

/-- C1 counterexample: the claim's literal block `[2:4,0:2]` is stated
as `[[3,6],[4,3]]`, but its entry `(0,1)` — full-matrix entry `(2,1)`,
which the claim's own formula gives as `C[1] = 2` — is `2`, not `6`. -/
theorem claim1_counterexample :
    lazyToeplitzGet [1,2,3,4] [1,5,6,7] 2 4 0 2 0 1 = 2 ∧ (2 : Int) ≠ 6 := by
  exact ⟨by decide, by decide⟩

/-- C1 witness: the general part of `claim1_toeplitz_block` applied to
the concrete below-diagonal query `[2:4) x [0:2)` at block entry
`(1, 0)`. -/
theorem claim1_witness :
    lazyToeplitzGet [1,2,3,4] [1,5,6,7] 2 4 0 2 1 0
      = fullMatrix [1,2,3,4] [1,5,6,7] 3 0 :=
  claim1_toeplitz_block.1 [1,2,3,4] [1,5,6,7] 2 4 0 2 1 0
    (by decide) (by decide) (by decide) (by decide) (by decide)

/-! ### Section 2: a float model with a non-finite marker

`iterative_correction_symmetric` works on IEEE doubles.  Its arithmetic
is modelled exactly over the rationals, except that non-finite values
are collapsed into a single marker `none` (written `fnan` below).  In
this function non-finite values arise only as NaN: `np.mean` of an
empty slice (all rows excluded), and products/quotients involving such
a NaN.  A division by exact zero, which IEEE would turn into an
infinity, is also sent to the marker; for the nonnegative inputs of the
claims it never occurs with a finite nonzero numerator. -/

/-- A double: a finite rational, or the non-finite marker. -/
abbrev F := Option Rat

/-- The non-finite (NaN) value. -/
def fnan : F := none

/-- A finite double. -/
def fval (q : Rat) : F := some q

def fadd : F → F → F
  | some a, some b => some (a + b)
  | _, _ => none

def fsub : F → F → F
  | some a, some b => some (a - b)
  | _, _ => none

def fmul : F → F → F
  | some a, some b => some (a * b)
  | _, _ => none

def fdiv : F → F → F
  | some a, some b => if b = 0 then none else some (a / b)
  | _, _ => none

/-- `numpy` sum of a 1-D array (empty sum is `0`; any non-finite entry
poisons the result). -/
def fsum : List F → F
  | [] => some 0
  | a :: l => fadd a (fsum l)

/-- `np.mean` of a 1-D array: NaN on an empty slice, else sum divided
by the length. -/
def fmean (l : List F) : F :=
  if l.length = 0 then none else fdiv (fsum l) (some (l.length : Rat))

/-- `np.var` of a 1-D array: the mean of the squared deviations from
the mean. -/
def fvar (l : List F) : F :=
  fmean (l.map (fun a => fmul (fsub a (fmean l)) (fsub a (fmean l))))

/-- IEEE `<` against a finite bound: false whenever the left side is
non-finite (NaN comparisons are false). -/
def flt (a : F) (b : Rat) : Bool :=
  match a with
  | some q => decide (q < b)
  | none => false

/-! ### Section 3: `iterative_correction_symmetric`

The matrix is an index function `Nat → Nat → F` together with its size
`N`; only indices below `N` are ever read.  The embedding follows the
source statement by statement. -/

/-- `np.sum(x, axis=1)`: the vector of row sums. -/
def rowSums (N : Nat) (x : Nat → Nat → F) : Nat → F :=
  fun i => fsum ((List.range N).map (fun j => x i j))

/-- The diagonal-zeroing preamble of `iterative_correction_symmetric`:
for `d in range(0, ignore_diags)` set `_x[j, j+d] = 0` and
`_x[j+d, j] = 0` for all `j` with `j+d < N`.  The writes are constant,
so the sequential loops amount to this single functional update. -/
def zeroDiags (N ig : Nat) (x : Nat → Nat → F) : Nat → Nat → F :=
  fun i j =>
    if (j ≤ i ∧ i - j < ig ∧ i < N) ∨ (i ≤ j ∧ j - i < ig ∧ j < N) then some 0
    else x i j

/-- The result of one loop iteration of `iterative_correction_symmetric`. -/
structure StepOut where
  newX : Nat → Nat → F
  newBias : Nat → F
  newMask : Nat → Bool
  crit : F

/-- The exclusion mask recomputed inside each loop iteration:
`mask = (s == 0)` with `s = np.sum(_x, axis=1)`. -/
def icRowMask (N : Nat) (x : Nat → Nat → F) : Nat → Bool :=
  fun i => decide (rowSums N x i = some 0)

/-- The renormalisation constant of one iteration:
`np.mean(s[~mask])` (NaN when every row is excluded). -/
def icNormMean (N : Nat) (x : Nat → Nat → F) : F :=
  fmean (((List.range N).filter (fun i => !(icRowMask N x i))).map (rowSums N x))

/-- The damped scale factors of one iteration, following the source
lines in order: `s = s / np.mean(s[~mask])`; `s[mask] = 1`; `s -= 1`;
`s *= 0.8`; `s += 1`. -/
def icS (N : Nat) (x : Nat → Nat → F) : Nat → F :=
  fun i =>
    fadd
      (fmul
        (fsub
          (if icRowMask N x i then some 1
            else fdiv (rowSums N x i) (icNormMean N x))
          (some 1))
        (some (4/5)))
      (some 1)

/-- One iteration of the correction loop, following the source lines in
order: `s = np.sum(_x, axis=1)`; `mask = (s == 0)`;
`s = s / np.mean(s[~mask])`; `s[mask] = 1`; `s -= 1`; `s *= 0.8`;
`s += 1`; `totalBias *= s`; `_x[i,j] /= s[i] * s[j]` for every entry;
`crit = np.var(s)`. -/
def icStep (N : Nat) (x : Nat → Nat → F) (bias : Nat → F) : StepOut :=
  ⟨fun i j => fdiv (x i j) (fmul (icS N x i) (icS N x j)),
   fun i => fmul (bias i) (icS N x i),
   icRowMask N x,
   fvar ((List.range N).map (icS N x))⟩

/-- The loop state: current matrix, running total bias, the last
computed exclusion mask, the convergence flag and the last value of the
loop variable `iternum`. -/
structure ICState where
  x : Nat → Nat → F
  bias : Nat → F
  mask : Nat → Bool
  converged : Bool
  iternum : Nat

/-- The `for iternum in range(max_iter)` loop with its early `break`:
`fuel` is the number of iterations still allowed and `i` the current
value of `iternum`.  The loop breaks (setting `converged`) when
`tol > 0` and `crit < tol`. -/
def icGo (N : Nat) (tol : Rat) : Nat → Nat → ICState → ICState
  | 0, _, st => st
  | fuel + 1, i, st =>
    let p := icStep N st.x st.bias
    let st2 : ICState := ⟨p.newX, p.newBias, p.newMask, st.converged, i⟩
    if 0 < tol ∧ flt p.crit tol = true then
      ⟨st2.x, st2.bias, st2.mask, true, st2.iternum⟩
    else icGo N tol fuel (i + 1) st2

/-- The value returned by `iterative_correction_symmetric`: corrected
matrix, total bias vector and the report fields. -/
structure ICResult where
  x : Nat → Nat → F
  bias : Nat → F
  converged : Bool
  iternum : Nat

/-- `iterative_correction_symmetric(x, max_iter, ignore_diags, tol)`.
The source copies `x` on entry (`_x = x.copy()`) and mutates only the
copy, so the embedding is a pure function of the input.  After the
loop: `corr = totalBias[~mask].mean()`, `_x = _x * corr * corr`,
`totalBias /= corr`.  `mask` is initialised before the loop so that the
final renormalisation is defined even when `max_iter = 0`. -/
def iterative_correction_symmetric (N : Nat) (x : Nat → Nat → F)
    (max_iter ignore_diags : Nat) (tol : Rat) : ICResult :=
  let x0 := zeroDiags N ignore_diags x
  let stF := icGo N tol max_iter 0 ⟨x0, fun _ => some 1, icRowMask N x0, false, 0⟩
  let corr := fmean (((List.range N).filter (fun i => !(stF.mask i))).map stF.bias)
  ⟨fun i j => fmul (fmul (stF.x i j) corr) corr,
   fun i => fdiv (stF.bias i) corr,
   stF.converged,
   stF.iternum⟩

/-- The balancing iteration as described by the spec sentence for C4:
recompute row sums `s`; recompute the bad-row mask fresh from `s == 0`;
normalize `s` by the mean over non-excluded entries and force excluded
entries to `s = 1`; damp with `s1 = 1 + 0.8*(s - 1)`; multiply the
running total bias by `s1`; divide every entry `M[i,j]` by
`s1[i]*s1[j]`. -/
def icStepSpec (N : Nat) (x : Nat → Nat → F) (bias : Nat → F) : StepOut :=
  let s := rowSums N x
  let bad := fun i => decide (s i = some 0)
  let m := fmean (((List.range N).filter (fun i => !(bad i))).map s)
  let sNorm := fun i => if bad i then some 1 else fdiv (s i) m
  let sDamp := fun i => fadd (some 1) (fmul (some (4/5)) (fsub (sNorm i) (some 1)))
  ⟨fun i j => fdiv (x i j) (fmul (sDamp i) (sDamp j)),
   fun i => fmul (bias i) (sDamp i),
   bad,
   fvar ((List.range N).map sDamp)⟩

lemma damp_comm (a : F) :
    fadd (fmul (fsub a (some 1)) (some (4/5))) (some 1)
      = fadd (some 1) (fmul (some (4/5)) (fsub a (some 1))) := by
  cases a with
  | none => rfl
  | some q =>
    simp only [fsub, fmul, fadd]
    congr 1
    ring

/-- The damped scale factors in the algebraic form used by the spec
sentence: `s1 = 1 + 0.8*(s - 1)`. -/
lemma icS_spec_form (N : Nat) (x : Nat → Nat → F) :
    icS N x = fun i =>
      fadd (some 1)
        (fmul (some (4/5))
          (fsub
            (if icRowMask N x i then some 1
              else fdiv (rowSums N x i) (icNormMean N x))
            (some 1))) := by
  funext i
  exact damp_comm _

/-- C4: each iteration of the balancer recomputes the row sums and the
exclusion mask from the current matrix, normalizes by the mean over
non-excluded entries, forces excluded entries to 1, damps with
`s1 = 1 + 0.8*(s-1)`, multiplies the total bias by `s1` and divides
every entry by `s1[i]*s1[j]`: the loop body `icStep` coincides with the
step `icStepSpec` transcribed from the claim. -/
theorem claim4_iteration_structure (N : Nat) (x : Nat → Nat → F)
    (bias : Nat → F) :
    (∀ i j, (icStep N x bias).newX i j = (icStepSpec N x bias).newX i j)
    ∧ (∀ i, (icStep N x bias).newBias i = (icStepSpec N x bias).newBias i)
    ∧ (∀ i, (icStep N x bias).newMask i = (icStepSpec N x bias).newMask i)
    ∧ (icStep N x bias).crit = (icStepSpec N x bias).crit := by
  refine ⟨?_, ?_, ?_, ?_⟩
  · intro i j
    simp only [icStep, icStepSpec, icS_spec_form, icRowMask, icNormMean]
  · intro i
    simp only [icStep, icStepSpec, icS_spec_form, icRowMask, icNormMean]
  · intro i
    simp only [icStep, icStepSpec, icRowMask]
  · simp only [icStep, icStepSpec, icS_spec_form, icRowMask, icNormMean]

/-- C3: on a fully-excluded matrix (every row sum zero) the balancer
does not fail: `np.mean` of the empty slice `s[~mask]` is NaN, the
assignment `s[mask] = 1` then overwrites every entry with 1, the loop
converges immediately, and the final renormalisation constant
`totalBias[~mask].mean()` is again the NaN of an empty mean — so the
function silently returns an all-NaN corrected matrix and bias vector
with `converged = True`, raising no error.  (Evaluated here on the 2x2
zero matrix with `max_iter=1`, `ignore_diags=0` and the default
tolerance `1e-5`; the loop breaks in its first iteration, so the
default `max_iter=1000` behaves identically.) -/
theorem claim3_zero_matrix_silent_nan :
    (iterative_correction_symmetric 2 (fun _ _ => some 0) 1 0 (1/100000)).x 0 0 = none
    ∧ (iterative_correction_symmetric 2 (fun _ _ => some 0) 1 0 (1/100000)).x 0 1 = none
    ∧ (iterative_correction_symmetric 2 (fun _ _ => some 0) 1 0 (1/100000)).x 1 0 = none
    ∧ (iterative_correction_symmetric 2 (fun _ _ => some 0) 1 0 (1/100000)).x 1 1 = none
    ∧ (iterative_correction_symmetric 2 (fun _ _ => some 0) 1 0 (1/100000)).bias 0 = none
    ∧ (iterative_correction_symmetric 2 (fun _ _ => some 0) 1 0 (1/100000)).bias 1 = none
    ∧ (iterative_correction_symmetric 2 (fun _ _ => some 0) 1 0 (1/100000)).converged = true := by
  norm_num [iterative_correction_symmetric, icGo, icStep, icS, icRowMask,
    icNormMean, zeroDiags, rowSums, fsum, fadd, fsub, fmul, fdiv, fmean, fvar,
    flt, List.range_succ]

/-! ### Section 4: algebraic facts about the float model, and scaling
the balancer input -/

lemma fmul_comm (a b : F) : fmul a b = fmul b a := by
  cases a <;> cases b <;> simp [fmul, mul_comm]

lemma fmul_assoc (a b c : F) : fmul (fmul a b) c = fmul a (fmul b c) := by
  cases a <;> cases b <;> cases c <;> simp [fmul, mul_assoc]

lemma fmul_fadd (k : Rat) (b c : F) :
    fmul (some k) (fadd b c) = fadd (fmul (some k) b) (fmul (some k) c) := by
  cases b <;> cases c <;> simp [fmul, fadd, mul_add]

lemma fsum_map_scale {α : Type} (k : Rat) (f : α → F) (l : List α) :
    fsum (l.map (fun a => fmul (some k) (f a)))
      = fmul (some k) (fsum (l.map f)) := by
  induction l with
  | nil => simp [fsum, fmul]
  | cons a l ih => simp only [List.map_cons, fsum, ih, fmul_fadd]

lemma fdiv_fmul_left (k : Rat) (a b : F) :
    fdiv (fmul (some k) a) b = fmul (some k) (fdiv a b) := by
  cases a with
  | none => cases b <;> rfl
  | some q =>
    cases b with
    | none => rfl
    | some r =>
      by_cases hr : r = 0
      · simp [fdiv, fmul, hr]
      · simp [fdiv, fmul, hr, mul_div_assoc]

lemma fmean_map_scale {α : Type} (k : Rat) (f : α → F) (l : List α) :
    fmean (l.map (fun a => fmul (some k) (f a)))
      = fmul (some k) (fmean (l.map f)) := by
  unfold fmean
  rw [List.length_map, List.length_map, fsum_map_scale]
  by_cases h : l.length = 0
  · rw [if_pos h, if_pos h]
    rfl
  · rw [if_neg h, if_neg h, fdiv_fmul_left]

lemma fmul_eq_zero_iff (k : Rat) (hk : k ≠ 0) (a : F) :
    fmul (some k) a = some 0 ↔ a = some 0 := by
  cases a with
  | none => simp [fmul]
  | some q => simp [fmul, mul_eq_zero, hk]

lemma fdiv_scale_cancel (k : Rat) (hk : k ≠ 0) (a b : F) :
    fdiv (fmul (some k) a) (fmul (some k) b) = fdiv a b := by
  cases a with
  | none => cases b <;> rfl
  | some q =>
    cases b with
    | none => rfl
    | some r =>
      by_cases hr : r = 0
      · simp [fdiv, fmul, hr, hk]
      · have hkr : k * r ≠ 0 := mul_ne_zero hk hr
        simp only [fmul, fdiv, if_neg hr, if_neg hkr]
        congr 1
        field_simp
        ring

lemma rowSums_scale (N : Nat) (k : Rat) (x : Nat → Nat → F) :
    rowSums N (fun i j => fmul (some k) (x i j))
      = fun i => fmul (some k) (rowSums N x i) := by
  funext i
  exact fsum_map_scale k (fun j => x i j) (List.range N)

lemma icRowMask_scale (N : Nat) (k : Rat) (hk : k ≠ 0) (x : Nat → Nat → F) :
    icRowMask N (fun i j => fmul (some k) (x i j)) = icRowMask N x := by
  funext i
  unfold icRowMask
  rw [rowSums_scale]
  exact decide_eq_decide.mpr (fmul_eq_zero_iff k hk _)

lemma icNormMean_scale (N : Nat) (k : Rat) (hk : k ≠ 0) (x : Nat → Nat → F) :
    icNormMean N (fun i j => fmul (some k) (x i j))
      = fmul (some k) (icNormMean N x) := by
  unfold icNormMean
  rw [icRowMask_scale N k hk, rowSums_scale]
  exact fmean_map_scale k (fun i => rowSums N x i) _

lemma icS_scale (N : Nat) (k : Rat) (hk : k ≠ 0) (x : Nat → Nat → F) :
    icS N (fun i j => fmul (some k) (x i j)) = icS N x := by
  funext i
  unfold icS
  rw [icRowMask_scale N k hk, icNormMean_scale N k hk, rowSums_scale]
  rw [fdiv_scale_cancel k hk]

lemma icStep_scale_newX (N : Nat) (k : Rat) (hk : k ≠ 0)
    (x : Nat → Nat → F) (bias : Nat → F) :
    (icStep N (fun i j => fmul (some k) (x i j)) bias).newX
      = fun i j => fmul (some k) ((icStep N x bias).newX i j) := by
  funext i j
  unfold icStep
  simp only [icS_scale N k hk]
  exact fdiv_fmul_left k _ _

lemma icStep_scale_newBias (N : Nat) (k : Rat) (hk : k ≠ 0)
    (x : Nat → Nat → F) (bias : Nat → F) :
    (icStep N (fun i j => fmul (some k) (x i j)) bias).newBias
      = (icStep N x bias).newBias := by
  unfold icStep
  simp only [icS_scale N k hk]

lemma icStep_scale_newMask (N : Nat) (k : Rat) (hk : k ≠ 0)
    (x : Nat → Nat → F) (bias : Nat → F) :
    (icStep N (fun i j => fmul (some k) (x i j)) bias).newMask
      = (icStep N x bias).newMask := by
  unfold icStep
  simp only [icRowMask_scale N k hk]

lemma icStep_scale_crit (N : Nat) (k : Rat) (hk : k ≠ 0)
    (x : Nat → Nat → F) (bias : Nat → F) :
    (icStep N (fun i j => fmul (some k) (x i j)) bias).crit
      = (icStep N x bias).crit := by
  unfold icStep
  simp only [icS_scale N k hk]

/-- Scaling the matrix by `k` commutes with the whole iteration loop:
the matrix stays scaled by `k` while bias, mask, convergence flag and
iteration count are unchanged. -/
lemma icGo_scale (N : Nat) (tol k : Rat) (hk : k ≠ 0) :
    ∀ (fuel i : Nat) (xm : Nat → Nat → F) (bias : Nat → F)
      (mask : Nat → Bool) (conv : Bool) (it : Nat),
      icGo N tol fuel i
          ⟨fun a b => fmul (some k) (xm a b), bias, mask, conv, it⟩
        = ⟨fun a b => fmul (some k) ((icGo N tol fuel i ⟨xm, bias, mask, conv, it⟩).x a b),
           (icGo N tol fuel i ⟨xm, bias, mask, conv, it⟩).bias,
           (icGo N tol fuel i ⟨xm, bias, mask, conv, it⟩).mask,
           (icGo N tol fuel i ⟨xm, bias, mask, conv, it⟩).converged,
           (icGo N tol fuel i ⟨xm, bias, mask, conv, it⟩).iternum⟩ := by
  intro fuel
  induction fuel with
  | zero => intro i xm bias mask conv it; rfl
  | succ fuel ih =>
    intro i xm bias mask conv it
    simp only [icGo, icStep_scale_newX N k hk, icStep_scale_newBias N k hk,
      icStep_scale_newMask N k hk, icStep_scale_crit N k hk]
    by_cases hbrk : 0 < tol ∧ flt (icStep N xm bias).crit tol = true
    · simp only [if_pos hbrk]
    · simp only [if_neg hbrk]
      exact ih (i + 1) (icStep N xm bias).newX (icStep N xm bias).newBias
        (icStep N xm bias).newMask conv i

lemma zeroDiags_scale (N ig : Nat) (k : Rat) (x : Nat → Nat → F) :
    zeroDiags N ig (fun i j => fmul (some k) (x i j))
      = fun i j => fmul (some k) (zeroDiags N ig x i j) := by
  funext i j
  unfold zeroDiags
  by_cases h : (j ≤ i ∧ i - j < ig ∧ i < N) ∨ (i ≤ j ∧ j - i < ig ∧ j < N)
  · rw [if_pos h, if_pos h]
    simp [fmul]
  · rw [if_neg h, if_neg h]

lemma fmul_left_assoc2 (k a c : F) :
    fmul (fmul (fmul k a) c) c = fmul k (fmul (fmul a c) c) := by
  cases k <;> cases a <;> cases c <;> simp [fmul, mul_assoc]

/-- C2 (amended): balancing `k * M` (`k` nonzero) returns `k` times the
corrected matrix obtained from `M`, the identical bias vector, and an
identical convergence report.  (The claim as frozen asserts instead that
the corrected matrices coincide and the bias scales by `1/sqrt k`; see
the counterexample.) -/
theorem claim2_scale_behaviour (N max_iter ig : Nat) (tol k : Rat)
    (x : Nat → Nat → F) (hk : k ≠ 0) :
    (∀ i j,
      (iterative_correction_symmetric N (fun a b => fmul (some k) (x a b))
          max_iter ig tol).x i j
        = fmul (some k)
            ((iterative_correction_symmetric N x max_iter ig tol).x i j))
    ∧ (∀ i,
      (iterative_correction_symmetric N (fun a b => fmul (some k) (x a b))
          max_iter ig tol).bias i
        = (iterative_correction_symmetric N x max_iter ig tol).bias i)
    ∧ (iterative_correction_symmetric N (fun a b => fmul (some k) (x a b))
          max_iter ig tol).converged
        = (iterative_correction_symmetric N x max_iter ig tol).converged
    ∧ (iterative_correction_symmetric N (fun a b => fmul (some k) (x a b))
          max_iter ig tol).iternum
        = (iterative_correction_symmetric N x max_iter ig tol).iternum := by
  have hgo := icGo_scale N tol k hk max_iter 0 (zeroDiags N ig x)
    (fun _ => some 1) (icRowMask N (zeroDiags N ig x)) false 0
  simp only [iterative_correction_symmetric, zeroDiags_scale N ig k x,
    icRowMask_scale N k hk, hgo]
  exact ⟨fun i j => fmul_left_assoc2 _ _ _, fun i => trivial, trivial, trivial⟩

/-- C2 counterexample: with `M = [[1]]` (nonnegative, one bin), `k = 4`,
`max_iter = 1`, `ignore_diags = 0`, `tol = 0`, balancing `k*M = [[4]]`
returns the corrected matrix `[[4]]` — not the `[[1]]` returned for `M`
— and the returned bias entry is `1`, not `1/sqrt(4) = 1/2` times the
bias entry returned for `M`. -/
theorem claim2_counterexample :
    (iterative_correction_symmetric 1 (fun _ _ => some 4) 1 0 0).x 0 0
      ≠ (iterative_correction_symmetric 1 (fun _ _ => some 1) 1 0 0).x 0 0
    ∧ ¬ ((iterative_correction_symmetric 1 (fun _ _ => some 4) 1 0 0).bias 0
        = fmul (some (1/2))
            ((iterative_correction_symmetric 1 (fun _ _ => some 1) 1 0 0).bias 0)) := by
  norm_num [iterative_correction_symmetric, icGo, icStep, icS, icRowMask,
    icNormMean, zeroDiags, rowSums, fsum, fadd, fsub, fmul, fdiv, fmean, fvar,
    flt, List.range_succ]

/-- C2 witness: the amended theorem applied to the concrete input
`M = [[1]]`, `k = 4`, `max_iter = 1`, `ignore_diags = 0`, `tol = 0`,
at matrix entry `(0, 0)`. -/
theorem claim2_witness :
    (iterative_correction_symmetric 1
        (fun a b => fmul (some 4) ((fun _ _ => (some 1 : F)) a b)) 1 0 0).x 0 0
      = fmul (some 4)
          ((iterative_correction_symmetric 1 (fun _ _ => (some 1 : F)) 1 0 0).x 0 0) :=
  (claim2_scale_behaviour 1 1 0 0 4 (fun _ _ => some 1) (by norm_num)).1 0 0

/-! ### Section 5: symmetry preservation in the balancer -/

lemma zeroDiags_symm (N ig : Nat) (x : Nat → Nat → F)
    (hsym : ∀ i j, x i j = x j i) :
    ∀ i j, zeroDiags N ig x i j = zeroDiags N ig x j i := by
  intro i j
  unfold zeroDiags
  have hiff : ((j ≤ i ∧ i - j < ig ∧ i < N) ∨ (i ≤ j ∧ j - i < ig ∧ j < N))
      ↔ ((i ≤ j ∧ j - i < ig ∧ j < N) ∨ (j ≤ i ∧ i - j < ig ∧ i < N)) :=
    or_comm
  by_cases h : (j ≤ i ∧ i - j < ig ∧ i < N) ∨ (i ≤ j ∧ j - i < ig ∧ j < N)
  · rw [if_pos h, if_pos (hiff.mp h)]
  · rw [if_neg h, if_neg (fun hc => h (hiff.mpr hc))]
    exact hsym i j

lemma icStep_symm (N : Nat) (x : Nat → Nat → F) (bias : Nat → F)
    (hsym : ∀ i j, x i j = x j i) :
    ∀ i j, (icStep N x bias).newX i j = (icStep N x bias).newX j i := by
  intro i j
  unfold icStep
  show fdiv (x i j) (fmul (icS N x i) (icS N x j))
    = fdiv (x j i) (fmul (icS N x j) (icS N x i))
  rw [hsym i j, fmul_comm]

lemma icGo_symm (N : Nat) (tol : Rat) :
    ∀ (fuel i : Nat) (st : ICState), (∀ a b, st.x a b = st.x b a) →
      ∀ a b, (icGo N tol fuel i st).x a b = (icGo N tol fuel i st).x b a := by
  intro fuel
  induction fuel with
  | zero => intro i st hsym a b; exact hsym a b
  | succ fuel ih =>
    intro i st hsym a b
    show (icGo N tol (fuel + 1) i st).x a b = (icGo N tol (fuel + 1) i st).x b a
    unfold icGo
    by_cases hbrk : 0 < tol ∧ flt (icStep N st.x st.bias).crit tol = true
    · simp only [if_pos hbrk]
      exact icStep_symm N st.x st.bias hsym a b
    · simp only [if_neg hbrk]
      exact ih (i + 1)
        ⟨(icStep N st.x st.bias).newX, (icStep N st.x st.bias).newBias,
          (icStep N st.x st.bias).newMask, st.converged, i⟩
        (icStep_symm N st.x st.bias hsym) a b

/-- C7: for a symmetric input matrix, the corrected matrix returned by
`iterative_correction_symmetric` is symmetric: the diagonal-zeroing
preamble, each iteration (which divides entry `(i,j)` by the symmetric
factor `s[i]*s[j]`) and the final scalar renormalisation all preserve
symmetry. -/
theorem claim7_symmetric_preserved (N max_iter ig : Nat) (tol : Rat)
    (x : Nat → Nat → F) (hsym : ∀ i j, x i j = x j i) :
    ∀ i j, (iterative_correction_symmetric N x max_iter ig tol).x i j
      = (iterative_correction_symmetric N x max_iter ig tol).x j i := by
  intro i j
  have hgo := icGo_symm N tol max_iter 0
    ⟨zeroDiags N ig x, fun _ => some 1, icRowMask N (zeroDiags N ig x),
      false, 0⟩
    (zeroDiags_symm N ig x hsym) i j
  simp only [iterative_correction_symmetric]
  rw [hgo]

/-- C7 witness: the theorem applied to the constant symmetric 2x2
matrix of ones with one iteration, at entry `(0, 1)`. -/
theorem claim7_witness :
    (iterative_correction_symmetric 2 (fun _ _ => some 1) 1 0 0).x 0 1
      = (iterative_correction_symmetric 2 (fun _ _ => some 1) 1 0 0).x 1 0 :=
  claim7_symmetric_preserved 2 1 0 0 (fun _ _ => some 1)
    (fun _ _ => rfl) 0 1

/-! ### Section 6: `observed_over_expected`

The routine casts its input to `float64` (`np.array(matrix, dtype=double)`)
and works on the copy, so it is a pure function of the input; no NaN or
infinity arises inside it for finite input (every division is guarded),
so entries are modelled as plain rationals.

The distance-bin edges are `dist_bins = np.r_[0, logbins(1, N, ratio)]`.
`logbins` computes `np.rint(np.logspace(log10(1), log10(N), num))` with
`num = int(log(N)/log(ratio))`, sorts, deduplicates, and asserts that
the first edge is `1` and the last is `N`.  That computation is
floating-point; here the edge list is an explicit parameter, and the
theorems hypothesise exactly the properties `logbins` guarantees of it:
the list starts `0, 1, ...`, is strictly increasing, and ends at `N`
(captured by `binsChain` below).  For example `logbins(1, 4, 1.8)`
yields `num = int(log 4/log 1.8) = 2`, `np.logspace` then returns the
two endpoints, and the edges are `[1, 4]`, so `dist_bins = [0, 1, 4]`. -/

/-- The `mask` argument: the default empty array (no mask), a 1-D mask
of good bins, or a 2-D mask of good pixels. -/
inductive MaskArg where
  | noMask : MaskArg
  | oneD (m : Nat → Bool) : MaskArg
  | twoD (m : Nat → Nat → Bool) : MaskArg

/-- `mask2d`: a 1-D mask is expanded by the outer product
`mask[:, None] * mask[None, :]`. -/
def mask2dOf : MaskArg → (Nat → Nat → Bool)
  | MaskArg.noMask => fun _ _ => false
  | MaskArg.oneD m => fun i j => m i && m j
  | MaskArg.twoD m => fun i j => m i j

/-- `has_mask = mask2d.size > 0`. -/
def hasMaskOf : MaskArg → Bool
  | MaskArg.noMask => false
  | MaskArg.oneD _ => true
  | MaskArg.twoD _ => true

/-- The per-pixel test `not has_mask or mask2d[offset+j, j]`. -/
def oeOk (hm : Bool) (m2 : Nat → Nat → Bool) (i j : Nat) : Bool :=
  !hm || m2 i j

/-- The distance |i - j| of a pixel from the main diagonal. -/
def pixDist (i j : Nat) : Nat :=
  (i - j) + (j - i)

/-- `sum_pixels` of one distance bin: the first accumulation loop
`for offset in range(lo, hi): for j in range(0, N-offset): ...` reads
only the lower-triangle pixel `data[offset+j, j]`. -/
def binSum (N : Nat) (hm : Bool) (m2 : Nat → Nat → Bool)
    (data : Nat → Nat → Rat) (lo hi : Nat) : Rat :=
  ∑ offset in Finset.Ico lo hi, ∑ j in Finset.range (N - offset),
    if oeOk hm m2 (offset + j) j then data (offset + j) j else 0

/-- `n_pixels` of one distance bin (depends only on the mask). -/
def binCount (N : Nat) (hm : Bool) (m2 : Nat → Nat → Bool)
    (lo hi : Nat) : Nat :=
  ∑ offset in Finset.Ico lo hi, ∑ j in Finset.range (N - offset),
    if oeOk hm m2 (offset + j) j then 1 else 0

/-- The division loop of one bin: for every `offset` in `[lo, hi)` and
every `j < N - offset`, if `mask2d[offset+j, j]` passes then
`data[offset+j, j] /= mean` and, when `offset > 0`, also
`data[j, offset+j] /= mean`.  Written as the equivalent functional
update of pixel `(i, j)` (each pixel is written at most once: the
direct write has `j <= i`, the mirrored write has `i < j`). -/
def binDivide (N : Nat) (hm : Bool) (m2 : Nat → Nat → Bool) (mean : Rat)
    (lo hi : Nat) (data : Nat → Nat → Rat) : Nat → Nat → Rat :=
  fun i j =>
    if j ≤ i ∧ lo ≤ i - j ∧ i - j < hi ∧ i < N ∧ oeOk hm m2 i j = true then
      data i j / mean
    else if i < j ∧ lo ≤ j - i ∧ j - i < hi ∧ j < N ∧ oeOk hm m2 j i = true then
      data i j / mean
    else data i j

/-- Processing of one distance bin: record `sum_pixels` and `n_pixels`,
then `continue` when `n_pixels == 0` or `mean_pixel == 0`, else divide
the bin's pixels by `mean_pixel = sum_pixels / n_pixels`. -/
def oeApplyBin (N : Nat) (hm : Bool) (m2 : Nat → Nat → Bool)
    (data : Nat → Nat → Rat) (lo hi : Nat) :
    (Nat → Nat → Rat) × Rat × Nat :=
  let s := binSum N hm m2 data lo hi
  let n := binCount N hm m2 lo hi
  if n = 0 then (data, s, n)
  else if s / (n : Rat) = 0 then (data, s, n)
  else (binDivide N hm m2 (s / (n : Rat)) lo hi data, s, n)

/-- The main loop over `zip(dist_bins[:-1], dist_bins[1:])`, threading
the matrix state and collecting `sum_pixels_arr` and `n_pixels_arr`. -/
def oeRun (N : Nat) (hm : Bool) (m2 : Nat → Nat → Bool) :
    (Nat → Nat → Rat) → List (Nat × Nat) →
      (Nat → Nat → Rat) × List Rat × List Nat
  | data, [] => (data, [], [])
  | data, (lo, hi) :: bins =>
    let p := oeApplyBin N hm m2 data lo hi
    let q := oeRun N hm m2 p.1 bins
    (q.1, p.2.1 :: q.2.1, p.2.2 :: q.2.2)

/-- `zip(dist_bins[:-1], dist_bins[1:])`: the consecutive pairs of the
edge list. -/
def binsOfEdges : List Nat → List (Nat × Nat)
  | a :: b :: rest => (a, b) :: binsOfEdges (b :: rest)
  | _ => []

/-- `observed_over_expected(matrix, mask, dist_bin_edge_ratio)` with
the floating-point edge list `dist_bins` passed explicitly (see the
section comment): returns the normalised matrix, `sum_pixels_arr` and
`n_pixels_arr`. -/
def observed_over_expected (N : Nat) (matrix : Nat → Nat → Rat)
    (mask : MaskArg) (dist_bins : List Nat) :
    (Nat → Nat → Rat) × List Rat × List Nat :=
  oeRun N (hasMaskOf mask) (mask2dOf mask) matrix (binsOfEdges dist_bins)

/-- Well-formedness of a bin list: bins start no earlier than `c`, are
nonempty, and consecutive bins do not overlap (this is what the sorted,
deduplicated `logbins` edges guarantee). -/
def binsChain : Nat → List (Nat × Nat) → Bool
  | _, [] => true
  | c, (lo, hi) :: bins => (decide (c ≤ lo) && decide (lo < hi)) && binsChain hi bins

lemma binsChain_mem :
    ∀ (bins : List (Nat × Nat)) (c : Nat), binsChain c bins = true →
      ∀ p ∈ bins, c ≤ p.1 ∧ p.1 < p.2 := by
  intro bins
  induction bins with
  | nil => intro c _ p hp; cases hp
  | cons q bins ih =>
    intro c h p hp
    have hq : (c ≤ q.1 ∧ q.1 < q.2) ∧ binsChain q.2 bins = true := by
      cases q with
      | mk lo hi =>
        simp only [binsChain, Bool.and_eq_true, decide_eq_true_eq] at h
        exact ⟨⟨h.1.1, h.1.2⟩, h.2⟩
    rcases List.mem_cons.mp hp with rfl | hmem
    · exact hq.1
    · have := ih q.2 hq.2 p hmem
      exact ⟨by omega, this.2⟩

lemma binDivide_untouched (N : Nat) (hm : Bool) (m2 : Nat → Nat → Bool)
    (mean : Rat) (lo hi : Nat) (data : Nat → Nat → Rat) (i j : Nat)
    (h : pixDist i j < lo ∨ hi ≤ pixDist i j) :
    binDivide N hm m2 mean lo hi data i j = data i j := by
  unfold binDivide
  unfold pixDist at h
  rw [if_neg (by rintro ⟨h1, h2, h3, _, _⟩; omega),
    if_neg (by rintro ⟨h1, h2, h3, _, _⟩; omega)]

lemma oeApplyBin_fst_untouched (N : Nat) (hm : Bool) (m2 : Nat → Nat → Bool)
    (data : Nat → Nat → Rat) (lo hi i j : Nat)
    (h : pixDist i j < lo ∨ hi ≤ pixDist i j) :
    (oeApplyBin N hm m2 data lo hi).1 i j = data i j := by
  simp only [oeApplyBin]
  split_ifs with h1 h2
  · rfl
  · rfl
  · exact binDivide_untouched N hm m2 _ lo hi data i j h

lemma oeRun_fst_untouched (N : Nat) (hm : Bool) (m2 : Nat → Nat → Bool) :
    ∀ (bins : List (Nat × Nat)) (data : Nat → Nat → Rat) (i j : Nat),
      (∀ p ∈ bins, pixDist i j < p.1 ∨ p.2 ≤ pixDist i j) →
      (oeRun N hm m2 data bins).1 i j = data i j := by
  intro bins
  induction bins with
  | nil => intro data i j _; rfl
  | cons q bins ih =>
    intro data i j h
    cases q with
    | mk lo hi =>
      show (oeRun N hm m2 (oeApplyBin N hm m2 data lo hi).1 bins).1 i j = data i j
      rw [ih _ i j (fun p hp => h p (List.mem_cons_of_mem _ hp))]
      exact oeApplyBin_fst_untouched N hm m2 data lo hi i j
        (h (lo, hi) (List.mem_cons_self _ _))

lemma binSum_congr (N : Nat) (hm : Bool) (m2 : Nat → Nat → Bool)
    (lo hi : Nat) (d1 d2 : Nat → Nat → Rat)
    (h : ∀ i j, i < N → j ≤ i → lo ≤ i - j → i - j < hi → d1 i j = d2 i j) :
    binSum N hm m2 d1 lo hi = binSum N hm m2 d2 lo hi := by
  unfold binSum
  refine Finset.sum_congr rfl (fun offset hoff => ?_)
  refine Finset.sum_congr rfl (fun j hj => ?_)
  rw [Finset.mem_Ico] at hoff
  rw [Finset.mem_range] at hj
  by_cases hok : oeOk hm m2 (offset + j) j = true
  · rw [if_pos hok, if_pos hok,
      h (offset + j) j (by omega) (by omega) (by omega) (by omega)]
  · rw [if_neg hok, if_neg hok]

lemma oeApplyBin_fst_congr (N : Nat) (hm : Bool) (m2 : Nat → Nat → Bool)
    (lo hi : Nat) (d1 d2 : Nat → Nat → Rat) (i j : Nat)
    (h : ∀ a b, a < N → b ≤ a → lo ≤ a - b → a - b < hi → d1 a b = d2 a b)
    (hij : d1 i j = d2 i j) :
    (oeApplyBin N hm m2 d1 lo hi).1 i j = (oeApplyBin N hm m2 d2 lo hi).1 i j := by
  simp only [oeApplyBin]
  rw [binSum_congr N hm m2 lo hi d1 d2 h]
  split_ifs with h1 h2
  · exact hij
  · exact hij
  · unfold binDivide
    dsimp only
    split_ifs with hc1 hc2
    · rw [hij]
    · rw [hij]
    · exact hij

lemma oeApplyBin_report (N : Nat) (hm : Bool) (m2 : Nat → Nat → Bool)
    (data : Nat → Nat → Rat) (lo hi : Nat) :
    (oeApplyBin N hm m2 data lo hi).2.1 = binSum N hm m2 data lo hi
    ∧ (oeApplyBin N hm m2 data lo hi).2.2 = binCount N hm m2 lo hi := by
  simp only [oeApplyBin]
  split_ifs with h1 h2
  · exact ⟨rfl, rfl⟩
  · exact ⟨rfl, rfl⟩
  · exact ⟨rfl, rfl⟩

/-- Localisation: the value the full bin loop leaves at a pixel whose
offset falls in the `k`-th bin is the value the `k`-th bin processing
alone would have produced from the matrix as it stood when that bin was
reached — which, on the bin's own offsets, is still the original
matrix, since earlier bins only touch strictly smaller offsets. -/
lemma oeRun_hit (N : Nat) (hm : Bool) (m2 : Nat → Nat → Bool) :
    ∀ (k : Nat) (bins : List (Nat × Nat)) (c : Nat)
      (data data0 : Nat → Nat → Rat) (lo hi : Nat),
      binsChain c bins = true →
      bins.get? k = some (lo, hi) →
      (∀ a b, a < N → b < N → lo ≤ pixDist a b → pixDist a b < hi →
        data a b = data0 a b) →
      ∀ i j, i < N → j < N → lo ≤ pixDist i j → pixDist i j < hi →
        (oeRun N hm m2 data bins).1 i j
          = (oeApplyBin N hm m2 data0 lo hi).1 i j := by
  intro k
  induction k with
  | zero =>
    intro bins c data data0 lo hi hch hget hag i j hiN hjN hlo hhi
    cases bins with
    | nil => simp at hget
    | cons q bins =>
      have hq : q = (lo, hi) := by
        simpa using hget
      subst hq
      have hch2 : (c ≤ lo ∧ lo < hi) ∧ binsChain hi bins = true := by
        simp only [binsChain, Bool.and_eq_true, decide_eq_true_eq] at hch
        exact ⟨⟨hch.1.1, hch.1.2⟩, hch.2⟩
      show (oeRun N hm m2 (oeApplyBin N hm m2 data lo hi).1 bins).1 i j = _
      rw [oeRun_fst_untouched N hm m2 bins _ i j
        (fun p hp => Or.inl (by
          have := binsChain_mem bins hi hch2.2 p hp
          omega))]
      exact oeApplyBin_fst_congr N hm m2 lo hi data data0 i j
        (fun a b hA hB h1 h2 =>
          hag a b hA (by omega) (by unfold pixDist; omega)
            (by unfold pixDist; omega))
        (hag i j hiN hjN hlo hhi)
  | succ k ih =>
    intro bins c data data0 lo hi hch hget hag i j hiN hjN hlo hhi
    cases bins with
    | nil => simp at hget
    | cons q bins =>
      cases q with
      | mk l0 h0 =>
        have hch2 : (c ≤ l0 ∧ l0 < h0) ∧ binsChain h0 bins = true := by
          simp only [binsChain, Bool.and_eq_true, decide_eq_true_eq] at hch
          exact ⟨⟨hch.1.1, hch.1.2⟩, hch.2⟩
        have hget2 : bins.get? k = some (lo, hi) := hget
        have hmem : (lo, hi) ∈ bins := List.get?_mem hget2
        have hlo0 : h0 ≤ lo := (binsChain_mem bins h0 hch2.2 _ hmem).1
        show (oeRun N hm m2 (oeApplyBin N hm m2 data l0 h0).1 bins).1 i j = _
        exact ih bins h0 _ data0 lo hi hch2.2 hget2
          (fun a b hA hB h1 h2 => by
            rw [oeApplyBin_fst_untouched N hm m2 data l0 h0 a b
              (Or.inr (by omega))]
            exact hag a b hA hB h1 h2)
          i j hiN hjN hlo hhi

/-- The reported per-bin sum and count of the `k`-th bin are the sum
and count over the original matrix (earlier bins only modify strictly
smaller offsets, which the `k`-th bin's accumulation never reads). -/
lemma oeRun_report (N : Nat) (hm : Bool) (m2 : Nat → Nat → Bool) :
    ∀ (k : Nat) (bins : List (Nat × Nat)) (c : Nat)
      (data data0 : Nat → Nat → Rat) (lo hi : Nat),
      binsChain c bins = true →
      bins.get? k = some (lo, hi) →
      (∀ a b, a < N → b < N → lo ≤ pixDist a b → pixDist a b < hi →
        data a b = data0 a b) →
      (oeRun N hm m2 data bins).2.1.get? k
          = some (binSum N hm m2 data0 lo hi)
      ∧ (oeRun N hm m2 data bins).2.2.get? k
          = some (binCount N hm m2 lo hi) := by
  intro k
  induction k with
  | zero =>
    intro bins c data data0 lo hi hch hget hag
    cases bins with
    | nil => simp at hget
    | cons q bins =>
      have hq : q = (lo, hi) := by simpa using hget
      subst hq
      show ((oeApplyBin N hm m2 data lo hi).2.1 :: _).get? 0 = _
        ∧ ((oeApplyBin N hm m2 data lo hi).2.2 :: _).get? 0 = _
      rw [List.get?_cons_zero, List.get?_cons_zero,
        (oeApplyBin_report N hm m2 data lo hi).1,
        (oeApplyBin_report N hm m2 data lo hi).2]
      constructor
      · congr 1
        exact binSum_congr N hm m2 lo hi data data0
          (fun a b hA hB h1 h2 =>
            hag a b hA (by omega) (by unfold pixDist; omega)
              (by unfold pixDist; omega))
      · rfl
  | succ k ih =>
    intro bins c data data0 lo hi hch hget hag
    cases bins with
    | nil => simp at hget
    | cons q bins =>
      cases q with
      | mk l0 h0 =>
        have hch2 : (c ≤ l0 ∧ l0 < h0) ∧ binsChain h0 bins = true := by
          simp only [binsChain, Bool.and_eq_true, decide_eq_true_eq] at hch
          exact ⟨⟨hch.1.1, hch.1.2⟩, hch.2⟩
        have hget2 : bins.get? k = some (lo, hi) := hget
        have hmem : (lo, hi) ∈ bins := List.get?_mem hget2
        have hlo0 : h0 ≤ lo := (binsChain_mem bins h0 hch2.2 _ hmem).1
        show ((oeApplyBin N hm m2 data l0 h0).2.1
            :: (oeRun N hm m2 (oeApplyBin N hm m2 data l0 h0).1 bins).2.1).get? (k+1) = _
          ∧ ((oeApplyBin N hm m2 data l0 h0).2.2
            :: (oeRun N hm m2 (oeApplyBin N hm m2 data l0 h0).1 bins).2.2).get? (k+1) = _
        rw [List.get?_cons_succ, List.get?_cons_succ]
        exact ih bins h0 _ data0 lo hi hch2.2 hget2
          (fun a b hA hB h1 h2 => by
            rw [oeApplyBin_fst_untouched N hm m2 data l0 h0 a b
              (Or.inr (by omega))]
            exact hag a b hA hB h1 h2)

/-- C8: a distance bin with zero valid pixels (`n_pixels == 0`) or zero
mean (`mean_pixel == 0`) is skipped: every pixel at an offset inside
that bin keeps exactly its input value, no division is performed (the
embedding is total, mirroring that the source raises nothing), and the
computed `sum_pixels` and `n_pixels` of that bin are still reported. -/
theorem claim8_degenerate_bin (N : Nat) (mask : MaskArg) (edges : List Nat)
    (data : Nat → Nat → Rat) (k lo hi : Nat)
    (hchain : binsChain 0 (binsOfEdges edges) = true)
    (hget : (binsOfEdges edges).get? k = some (lo, hi))
    (hdeg : binCount N (hasMaskOf mask) (mask2dOf mask) lo hi = 0
      ∨ binSum N (hasMaskOf mask) (mask2dOf mask) data lo hi = 0) :
    (∀ i j, i < N → j < N → lo ≤ pixDist i j → pixDist i j < hi →
      (observed_over_expected N data mask edges).1 i j = data i j)
    ∧ (observed_over_expected N data mask edges).2.1.get? k
        = some (binSum N (hasMaskOf mask) (mask2dOf mask) data lo hi)
    ∧ (observed_over_expected N data mask edges).2.2.get? k
        = some (binCount N (hasMaskOf mask) (mask2dOf mask) lo hi) := by
  have hrep := oeRun_report N (hasMaskOf mask) (mask2dOf mask) k
    (binsOfEdges edges) 0 data data lo hi hchain hget
    (fun a b _ _ _ _ => rfl)
  refine ⟨fun i j hiN hjN hlo hhi => ?_, hrep.1, hrep.2⟩
  unfold observed_over_expected
  rw [oeRun_hit N (hasMaskOf mask) (mask2dOf mask) k (binsOfEdges edges) 0
    data data lo hi hchain hget (fun a b _ _ _ _ => rfl) i j hiN hjN hlo hhi]
  simp only [oeApplyBin]
  rcases hdeg with h | h
  · rw [if_pos h]
  · split_ifs with h1 h2
    · rfl
    · rfl
    · exact absurd (by rw [h]; exact zero_div _) h2

/-- C8 witness: the theorem applied to a 2x2 matrix with an all-false
1-D bin mask (so the bin `[0,1)` has zero valid pixels), edges
`[0,1,2]`, at pixel `(0,0)`. -/
theorem claim8_witness :
    (observed_over_expected 2 (fun _ _ => (3 : Rat))
        (MaskArg.oneD (fun _ => false)) [0, 1, 2]).1 0 0 = 3 :=
  (claim8_degenerate_bin 2 (MaskArg.oneD (fun _ => false)) [0, 1, 2]
      (fun _ _ => (3 : Rat)) 0 0 1 (by decide) (by decide)
      (Or.inl (by decide))).1 0 0 (by decide) (by decide) (by decide) (by decide)

lemma oeOk_false (m2 : Nat → Nat → Bool) (i j : Nat) :
    oeOk false m2 i j = true := by
  simp [oeOk]

lemma binDivide_nomask_hit (N : Nat) (m2 : Nat → Nat → Bool) (mean : Rat)
    (lo hi : Nat) (data : Nat → Nat → Rat) (i j : Nat)
    (hiN : i < N) (hjN : j < N)
    (hlo : lo ≤ pixDist i j) (hhi : pixDist i j < hi) :
    binDivide N false m2 mean lo hi data i j = data i j / mean := by
  unfold binDivide
  unfold pixDist at hlo hhi
  rcases le_or_lt j i with hle | hlt
  · rw [if_pos ⟨hle, by omega, by omega, hiN, oeOk_false m2 i j⟩]
  · rw [if_neg (by rintro ⟨h1, _⟩; omega),
      if_pos ⟨hlt, by omega, by omega, hjN, oeOk_false m2 j i⟩]

/-- For a matrix that is an exact function of the diagonal offset, with
that function constant across a bin's offsets, the bin sum equals the
common value times the bin's pixel count. -/
lemma binSum_toeplitz (N lo hi : Nat) (g : Nat → Rat)
    (m2 : Nat → Nat → Bool) (data : Nat → Nat → Rat)
    (hdata : ∀ i j, i < N → j < N → data i j = g (pixDist i j))
    (hconst : ∀ d, lo ≤ d → d < hi → g d = g lo) :
    binSum N false m2 data lo hi
      = g lo * (binCount N false m2 lo hi : Rat) := by
  unfold binSum binCount
  rw [Nat.cast_sum, Finset.mul_sum]
  refine Finset.sum_congr rfl (fun offset hoff => ?_)
  rw [Nat.cast_sum, Finset.mul_sum]
  refine Finset.sum_congr rfl (fun j hj => ?_)
  rw [Finset.mem_Ico] at hoff
  rw [Finset.mem_range] at hj
  rw [if_pos (oeOk_false m2 (offset + j) j),
    if_pos (oeOk_false m2 (offset + j) j)]
  rw [hdata (offset + j) j (by omega) (by omega)]
  have hd : pixDist (offset + j) j = offset := by unfold pixDist; omega
  rw [hd, hconst offset hoff.1 hoff.2]
  norm_num

/-- C5 (amended): for a matrix of the exact form `M[i,j] = g(|i-j|)`
with no mask, the Distance-Decay Normalizer's output equals 1 at every
pixel whose distance bin has a defined (`n_pixels != 0`) nonzero mean,
provided `g` is constant across the offsets of that bin — in
particular at every pixel of a single-offset bin.  (Without that
constancy the output at offset `d` is `g(d)` divided by the bin's
pixel-weighted mean of `g`, which is not 1 in general; see the
counterexample.) -/
theorem claim5_flat_decay (N : Nat) (g : Nat → Rat)
    (data : Nat → Nat → Rat) (edges : List Nat) (k lo hi : Nat)
    (hchain : binsChain 0 (binsOfEdges edges) = true)
    (hget : (binsOfEdges edges).get? k = some (lo, hi))
    (hdata : ∀ i j, i < N → j < N → data i j = g (pixDist i j))
    (hconst : ∀ d, lo ≤ d → d < hi → g d = g lo)
    (hn : binCount N (hasMaskOf MaskArg.noMask) (mask2dOf MaskArg.noMask)
        lo hi ≠ 0)
    (hs : binSum N (hasMaskOf MaskArg.noMask) (mask2dOf MaskArg.noMask)
        data lo hi ≠ 0) :
    ∀ i j, i < N → j < N → lo ≤ pixDist i j → pixDist i j < hi →
      (observed_over_expected N data MaskArg.noMask edges).1 i j = 1 := by
  intro i j hiN hjN hlo hhi
  unfold observed_over_expected
  rw [oeRun_hit N (hasMaskOf MaskArg.noMask) (mask2dOf MaskArg.noMask) k
    (binsOfEdges edges) 0 data data lo hi hchain hget
    (fun a b _ _ _ _ => rfl) i j hiN hjN hlo hhi]
  simp only [hasMaskOf, mask2dOf] at hn hs ⊢
  have hcast : (binCount N false (fun _ _ => false) lo hi : Rat) ≠ 0 :=
    Nat.cast_ne_zero.mpr hn
  have hbs := binSum_toeplitz N lo hi g (fun _ _ => false) data hdata hconst
  have hglo : g lo ≠ 0 := by
    intro h0
    exact hs (by rw [hbs, h0, zero_mul])
  have hmean : binSum N false (fun _ _ => false) data lo hi
      / (binCount N false (fun _ _ => false) lo hi : Rat) = g lo := by
    rw [hbs, mul_div_assoc, div_self hcast, mul_one]
  simp only [oeApplyBin]
  rw [if_neg hn, hmean, if_neg hglo]
  dsimp only
  rw [binDivide_nomask_hit N (fun _ _ => false) (g lo) lo hi data i j
    hiN hjN hlo hhi]
  rw [hdata i j hiN hjN]
  have hgd : g (pixDist i j) = g lo := hconst _ hlo hhi
  rw [hgd, div_self hglo]

/-- C5 witness: the amended theorem applied to the constant matrix of
ones on 2 bins with edges `[0,1,2]` (bin `[1,2)` holds the single
offset 1), at pixel `(1,0)`. -/
theorem claim5_witness :
    (observed_over_expected 2 (fun _ _ => (1 : Rat)) MaskArg.noMask
        [0, 1, 2]).1 1 0 = 1 :=
  claim5_flat_decay 2 (fun _ => (1 : Rat)) (fun _ _ => (1 : Rat))
    [0, 1, 2] 1 1 2 (by decide) (by decide)
    (fun _ _ _ _ => rfl) (fun d _ _ => rfl)
    (by decide)
    (by
      show binSum 2 false (fun _ _ => false) (fun _ _ => (1 : Rat)) 1 2 ≠ 0
      rw [binSum_toeplitz 2 1 2 (fun _ => (1 : Rat)) (fun _ _ => false)
        (fun _ _ => (1 : Rat)) (fun _ _ _ _ => rfl) (fun _ _ _ => rfl)]
      rw [show binCount 2 false (fun _ _ => false) 1 2 = 1 from by decide]
      norm_num)
    1 0 (by decide) (by decide) (by decide) (by decide)

/-- The concrete distance-decay matrix `M[i,j] = g(|i-j|)` with
`g = (1, 1, 4, 1)`, used to refute the unqualified claim C5. -/
def cexOE : Nat → Nat → Rat :=
  fun i j => if pixDist i j = 2 then 4 else 1

/-- C5 counterexample: with `N = 4` and the edge list `[0, 1, 4]` (the
code's `dist_bins` for `logbins(1, 4, 1.8)`, whose two log-spaced edges
are the endpoints `1` and `4`), the matrix `M[i,j] = g(|i-j|)` with
`g(1) = 1`, `g(2) = 4`, `g(3) = 1` has bin `[1,4)` with 6 valid pixels
and mean `12/6 = 2`, yet the output at pixel `(1,0)` is
`g(1)/2 = 1/2`, not 1. -/
theorem claim5_counterexample :
    binCount 4 false (fun _ _ => false) 1 4 = 6
    ∧ binSum 4 false (fun _ _ => false) cexOE 1 4 = 12
    ∧ (observed_over_expected 4 cexOE MaskArg.noMask [0, 1, 4]).1 1 0 = 1 / 2
    ∧ ((1 : Rat) / 2 ≠ 1) := by
  have hsum : binSum 4 false (fun _ _ => false) cexOE 1 4 = 12 := by
    norm_num [binSum, oeOk, cexOE, pixDist, Finset.sum_Ico_eq_sum_range,
      Finset.sum_range_succ, Finset.sum_range_zero]
  refine ⟨by decide, hsum, ?_, by norm_num⟩
  have hrun := oeRun_hit 4 false (fun _ _ => false) 1 (binsOfEdges [0, 1, 4])
    0 cexOE cexOE 1 4 (by decide) (by decide) (fun a b _ _ _ _ => rfl)
    1 0 (by decide) (by decide) (by decide) (by decide)
  show (oeRun 4 false (fun _ _ => false) cexOE (binsOfEdges [0, 1, 4])).1 1 0
    = 1 / 2
  rw [hrun]
  simp only [oeApplyBin]
  rw [hsum, show binCount 4 false (fun _ _ => false) 1 4 = 6 from by decide]
  rw [if_neg (by norm_num), if_neg (by norm_num)]
  dsimp only
  rw [binDivide_nomask_hit 4 (fun _ _ => false) _ 1 4 cexOE 1 0
    (by decide) (by decide) (by decide) (by decide)]
  norm_num [cexOE, pixDist]

lemma binSum_mask_congr (N : Nat) (hm : Bool) (m1 m2 : Nat → Nat → Bool)
    (data : Nat → Nat → Rat) (lo hi : Nat)
    (h : ∀ i j, j ≤ i → m1 i j = m2 i j) :
    binSum N hm m1 data lo hi = binSum N hm m2 data lo hi := by
  unfold binSum
  refine Finset.sum_congr rfl (fun offset _ => ?_)
  refine Finset.sum_congr rfl (fun j _ => ?_)
  rw [show oeOk hm m1 (offset + j) j = oeOk hm m2 (offset + j) j from by
    unfold oeOk; rw [h (offset + j) j (Nat.le_add_left j offset)]]

lemma binCount_mask_congr (N : Nat) (hm : Bool) (m1 m2 : Nat → Nat → Bool)
    (lo hi : Nat) (h : ∀ i j, j ≤ i → m1 i j = m2 i j) :
    binCount N hm m1 lo hi = binCount N hm m2 lo hi := by
  unfold binCount
  refine Finset.sum_congr rfl (fun offset _ => ?_)
  refine Finset.sum_congr rfl (fun j _ => ?_)
  rw [show oeOk hm m1 (offset + j) j = oeOk hm m2 (offset + j) j from by
    unfold oeOk; rw [h (offset + j) j (Nat.le_add_left j offset)]]

lemma binDivide_mask_congr (N : Nat) (hm : Bool) (m1 m2 : Nat → Nat → Bool)
    (mean : Rat) (lo hi : Nat) (data : Nat → Nat → Rat)
    (h : ∀ i j, j ≤ i → m1 i j = m2 i j) :
    binDivide N hm m1 mean lo hi data = binDivide N hm m2 mean lo hi data := by
  funext i j
  unfold binDivide
  rcases le_or_lt j i with hle | hlt
  · rw [show oeOk hm m1 i j = oeOk hm m2 i j from by
      unfold oeOk; rw [h i j hle]]
    by_cases hc1 : j ≤ i ∧ lo ≤ i - j ∧ i - j < hi ∧ i < N ∧ oeOk hm m2 i j = true
    · rw [if_pos hc1, if_pos hc1]
    · have hm1 : ¬ (i < j ∧ lo ≤ j - i ∧ j - i < hi ∧ j < N
          ∧ oeOk hm m1 j i = true) := by rintro ⟨h1, _⟩; omega
      have hm2 : ¬ (i < j ∧ lo ≤ j - i ∧ j - i < hi ∧ j < N
          ∧ oeOk hm m2 j i = true) := by rintro ⟨h1, _⟩; omega
      rw [if_neg hc1, if_neg hc1, if_neg hm1, if_neg hm2]
  · have hf1 : ¬ (j ≤ i ∧ lo ≤ i - j ∧ i - j < hi ∧ i < N
        ∧ oeOk hm m1 i j = true) := by rintro ⟨h1, _⟩; omega
    have hf2 : ¬ (j ≤ i ∧ lo ≤ i - j ∧ i - j < hi ∧ i < N
        ∧ oeOk hm m2 i j = true) := by rintro ⟨h1, _⟩; omega
    rw [if_neg hf1, if_neg hf2,
      show oeOk hm m1 j i = oeOk hm m2 j i from by
        unfold oeOk; rw [h j i (Nat.le_of_lt hlt)]]

lemma oeApplyBin_mask_congr (N : Nat) (hm : Bool) (m1 m2 : Nat → Nat → Bool)
    (data : Nat → Nat → Rat) (lo hi : Nat)
    (h : ∀ i j, j ≤ i → m1 i j = m2 i j) :
    oeApplyBin N hm m1 data lo hi = oeApplyBin N hm m2 data lo hi := by
  simp only [oeApplyBin]
  rw [binSum_mask_congr N hm m1 m2 data lo hi h,
    binCount_mask_congr N hm m1 m2 lo hi h,
    binDivide_mask_congr N hm m1 m2 _ lo hi data h]

lemma oeRun_mask_congr (N : Nat) (hm : Bool) (m1 m2 : Nat → Nat → Bool)
    (h : ∀ i j, j ≤ i → m1 i j = m2 i j) :
    ∀ (bins : List (Nat × Nat)) (data : Nat → Nat → Rat),
      oeRun N hm m1 data bins = oeRun N hm m2 data bins := by
  intro bins
  induction bins with
  | nil => intro data; rfl
  | cons q bins ih =>
    intro data
    cases q with
    | mk lo hi =>
      show ((oeRun N hm m1 (oeApplyBin N hm m1 data lo hi).1 bins).1,
          (oeApplyBin N hm m1 data lo hi).2.1
            :: (oeRun N hm m1 (oeApplyBin N hm m1 data lo hi).1 bins).2.1,
          (oeApplyBin N hm m1 data lo hi).2.2
            :: (oeRun N hm m1 (oeApplyBin N hm m1 data lo hi).1 bins).2.2) = _
      rw [oeApplyBin_mask_congr N hm m1 m2 data lo hi h, ih]
      rfl

lemma oeApplyBin_lowdata (N : Nat) (hm : Bool) (m2 : Nat → Nat → Bool)
    (d1 d2 : Nat → Nat → Rat) (lo hi : Nat)
    (h : ∀ i j, j ≤ i → d1 i j = d2 i j) :
    (∀ i j, j ≤ i →
      (oeApplyBin N hm m2 d1 lo hi).1 i j = (oeApplyBin N hm m2 d2 lo hi).1 i j)
    ∧ (oeApplyBin N hm m2 d1 lo hi).2.1 = (oeApplyBin N hm m2 d2 lo hi).2.1
    ∧ (oeApplyBin N hm m2 d1 lo hi).2.2 = (oeApplyBin N hm m2 d2 lo hi).2.2 := by
  have hsum : binSum N hm m2 d1 lo hi = binSum N hm m2 d2 lo hi :=
    binSum_congr N hm m2 lo hi d1 d2 (fun a b _ hba _ _ => h a b hba)
  simp only [oeApplyBin]
  rw [hsum]
  refine ⟨fun i j hji => ?_, ?_, ?_⟩
  · split_ifs with h1 h2
    · exact h i j hji
    · exact h i j hji
    · unfold binDivide
      dsimp only
      split_ifs with hc1 hc2
      · rw [h i j hji]
      · omega
      · exact h i j hji
  · split_ifs with h1 h2 <;> rfl
  · split_ifs with h1 h2 <;> rfl

lemma oeRun_lowdata (N : Nat) (hm : Bool) (m2 : Nat → Nat → Bool) :
    ∀ (bins : List (Nat × Nat)) (d1 d2 : Nat → Nat → Rat),
      (∀ i j, j ≤ i → d1 i j = d2 i j) →
      (oeRun N hm m2 d1 bins).2.1 = (oeRun N hm m2 d2 bins).2.1
      ∧ (oeRun N hm m2 d1 bins).2.2 = (oeRun N hm m2 d2 bins).2.2 := by
  intro bins
  induction bins with
  | nil => intro d1 d2 _; exact ⟨rfl, rfl⟩
  | cons q bins ih =>
    intro d1 d2 h
    cases q with
    | mk lo hi =>
      have hstep := oeApplyBin_lowdata N hm m2 d1 d2 lo hi h
      have hrest := ih (oeApplyBin N hm m2 d1 lo hi).1
        (oeApplyBin N hm m2 d2 lo hi).1 hstep.1
      show ((oeApplyBin N hm m2 d1 lo hi).2.1
            :: (oeRun N hm m2 (oeApplyBin N hm m2 d1 lo hi).1 bins).2.1
          = (oeApplyBin N hm m2 d2 lo hi).2.1
            :: (oeRun N hm m2 (oeApplyBin N hm m2 d2 lo hi).1 bins).2.1)
        ∧ ((oeApplyBin N hm m2 d1 lo hi).2.2
            :: (oeRun N hm m2 (oeApplyBin N hm m2 d1 lo hi).1 bins).2.2
          = (oeApplyBin N hm m2 d2 lo hi).2.2
            :: (oeRun N hm m2 (oeApplyBin N hm m2 d2 lo hi).1 bins).2.2)
      rw [hstep.2.1, hstep.2.2, hrest.1, hrest.2]
      exact ⟨rfl, rfl⟩

lemma oeOk_true (m : Nat → Nat → Bool) (a b : Nat) :
    oeOk true m a b = m a b := by
  simp [oeOk]

/-- C10: (1) the whole result of the Distance-Decay Normalizer is
unchanged when the per-pixel mask is modified strictly above the
diagonal — only the lower-triangle entries `mask2d[i+d, i]` are ever
consulted; (2) the reported per-bin sums and counts are unchanged when
the matrix is modified strictly above the diagonal — only the
lower-triangle elements `M[i+d, i]` are accumulated, each once; (3) in
a bin with `n_pixels != 0` and nonzero mean, the pixel `M[i+d, i]` and
its mirror `M[i, i+d]` are both divided by the bin mean exactly when
`mask2d[i+d, i]` is true, and both left unchanged otherwise. -/
theorem claim10_lower_triangle_mask :
    (∀ (N : Nat) (data : Nat → Nat → Rat) (edges : List Nat)
        (m1 m2 : Nat → Nat → Bool),
      (∀ i j, j ≤ i → m1 i j = m2 i j) →
      observed_over_expected N data (MaskArg.twoD m1) edges
        = observed_over_expected N data (MaskArg.twoD m2) edges)
    ∧ (∀ (N : Nat) (m : Nat → Nat → Bool) (d1 d2 : Nat → Nat → Rat)
        (edges : List Nat),
      (∀ i j, j ≤ i → d1 i j = d2 i j) →
      (observed_over_expected N d1 (MaskArg.twoD m) edges).2.1
          = (observed_over_expected N d2 (MaskArg.twoD m) edges).2.1
        ∧ (observed_over_expected N d1 (MaskArg.twoD m) edges).2.2
          = (observed_over_expected N d2 (MaskArg.twoD m) edges).2.2)
    ∧ (∀ (N : Nat) (m : Nat → Nat → Bool) (data : Nat → Nat → Rat)
        (edges : List Nat) (k lo hi : Nat),
      binsChain 0 (binsOfEdges edges) = true →
      (binsOfEdges edges).get? k = some (lo, hi) →
      binCount N true m lo hi ≠ 0 →
      binSum N true m data lo hi / (binCount N true m lo hi : Rat) ≠ 0 →
      ∀ i d, 0 < d → lo ≤ d → d < hi → i + d < N →
        (observed_over_expected N data (MaskArg.twoD m) edges).1 (i + d) i
          = (if m (i + d) i then
              data (i + d) i
                / (binSum N true m data lo hi / (binCount N true m lo hi : Rat))
            else data (i + d) i)
        ∧ (observed_over_expected N data (MaskArg.twoD m) edges).1 i (i + d)
          = (if m (i + d) i then
              data i (i + d)
                / (binSum N true m data lo hi / (binCount N true m lo hi : Rat))
            else data i (i + d))) := by
  refine ⟨?_, ?_, ?_⟩
  · intro N data edges m1 m2 h
    unfold observed_over_expected
    exact oeRun_mask_congr N true m1 m2 h (binsOfEdges edges) data
  · intro N m d1 d2 edges h
    unfold observed_over_expected
    exact oeRun_lowdata N true m (binsOfEdges edges) d1 d2 h
  · intro N m data edges k lo hi hchain hget hn hmean i d hd hlo hhi hiN
    have hlow := oeRun_hit N true m k (binsOfEdges edges) 0 data data lo hi
      hchain hget (fun a b _ _ _ _ => rfl) (i + d) i
      hiN (by omega) (by unfold pixDist; omega) (by unfold pixDist; omega)
    have hup := oeRun_hit N true m k (binsOfEdges edges) 0 data data lo hi
      hchain hget (fun a b _ _ _ _ => rfl) i (i + d)
      (by omega) hiN (by unfold pixDist; omega) (by unfold pixDist; omega)
    unfold observed_over_expected
    simp only [hasMaskOf, mask2dOf]
    rw [hlow, hup]
    simp only [oeApplyBin]
    rw [if_neg hn, if_neg hmean]
    dsimp only
    unfold binDivide
    simp only [oeOk_true]
    constructor
    · by_cases hmask : m (i + d) i = true
      · rw [if_pos ⟨by omega, by omega, by omega, hiN, hmask⟩, if_pos hmask]
      · rw [if_neg (fun hc => hmask hc.2.2.2.2),
          if_neg (by rintro ⟨h1, _⟩; omega), if_neg hmask]
    · rw [if_neg (by rintro ⟨h1, _⟩; omega)]
      by_cases hmask : m (i + d) i = true
      · rw [if_pos ⟨by omega, by omega, by omega, hiN, hmask⟩, if_pos hmask]
      · rw [if_neg (fun hc => hmask hc.2.2.2.2), if_neg hmask]

/-- C10 witness: part (3) of the theorem applied to the 2x2 matrix
`[[1,2],[2,1]]` with the all-true per-pixel mask, edges `[0,1,2]`, bin
`[1,2)`, pixel pair `(1,0)` and `(0,1)`. -/
theorem claim10_witness :
    (observed_over_expected 2 (fun i j => if i = j then (1 : Rat) else 2)
        (MaskArg.twoD (fun _ _ => true)) [0, 1, 2]).1 1 0
      = (if (fun _ _ => true) 1 0 then
          (fun i j => if i = j then (1 : Rat) else 2) 1 0
            / (binSum 2 true (fun _ _ => true)
                (fun i j => if i = j then (1 : Rat) else 2) 1 2
              / (binCount 2 true (fun _ _ => true) 1 2 : Rat))
        else (fun i j => if i = j then (1 : Rat) else 2) 1 0) :=
  (claim10_lower_triangle_mask.2.2 2 (fun _ _ => true)
    (fun i j => if i = j then (1 : Rat) else 2) [0, 1, 2] 1 1 2
    (by decide) (by decide) (by decide)
    (by
      rw [show binCount 2 true (fun _ _ => true) 1 2 = 1 from by decide,
        show binSum 2 true (fun _ _ => true)
            (fun i j => if i = j then (1 : Rat) else 2) 1 2 = 2 from by
          norm_num [binSum, oeOk, Finset.sum_Ico_eq_sum_range,
            Finset.sum_range_succ, Finset.sum_range_zero]]
      norm_num)
    0 1 (by decide) (by decide) (by decide) (by decide)).1

/-! ### Section 7: the bad-bin masking of `find_insulating_boundaries`

Per chromosome the function computes two integer arrays from the
per-bin bad-bin flags `is_bad_bin` (length `n`, window `w = window_bins`):

    bad_bins_u = is_bad_bin.astype(int)
    bad_bins_d = is_bad_bin.astype(int)
    for i in range(1, window_bins):
        bad_bins_u[i:] += is_bad_bin[:-i]
        bad_bins_u[:i] += 1
        bad_bins_d[:-i] += is_bad_bin[i:]
        bad_bins_u[-i:] += 1

and then sets `ins_track[k]` to NaN when `is_bad_bin[k]`, when
`bad_bins_u[k] > max_bad_bins`, or when `bad_bins_d[k] > max_bad_bins`.
Note the last loop line adds the end-of-chromosome padding to
`bad_bins_u`, not `bad_bins_d`. -/

/-- Final value of `bad_bins_u[k]` (for `k < n`): the flag itself, the
upstream flags `is_bad_bin[k-i]` with out-of-chromosome upstream
positions counted as 1, plus — as the source has it — the downstream
end padding `bad_bins_u[-i:] += 1`, which lands on `k >= n - i`. -/
def badBinsU (bad : Nat → Bool) (n w k : Nat) : Nat :=
  (if bad k then 1 else 0)
  + ∑ i in Finset.Ico 1 w,
      ((if i ≤ k then (if bad (k - i) then 1 else 0) else 1)
        + (if n - i ≤ k then 1 else 0))

/-- Final value of `bad_bins_d[k]` (for `k < n`): the flag itself plus
the downstream flags `is_bad_bin[k+i]`; positions past the chromosome
end contribute nothing (the padding that belongs here was added to
`bad_bins_u` instead). -/
def badBinsD (bad : Nat → Bool) (n w k : Nat) : Nat :=
  (if bad k then 1 else 0)
  + ∑ i in Finset.Ico 1 w,
      (if k + i < n then (if bad (k + i) then 1 else 0) else 0)

/-- The three NaN-masking assignments applied to the insulation track
(the track values themselves are irrelevant to the masking and are kept
abstract; `none` stands for NaN). -/
def maskedInsTrack (track : Nat → Option Rat) (bad : Nat → Bool)
    (n w m : Nat) : Nat → Option Rat :=
  fun k =>
    if bad k = true ∨ m < badBinsU bad n w k ∨ m < badBinsD bad n w k then none
    else track k

/-- C6: evaluation of the bad-bin masking at the failing input
`n = 4`, `window_bins = 3`, `is_bad_bin = [F,F,F,T]`,
`max_bad_bins = 1`, bin `k = 2`.  The downstream window of bin 2
crosses the chromosome end, so by the claim its downstream count is
`is_bad_bin[3] + 1 (out of chromosome) = 2 > 1` and bin 2 must be
masked; the code computes `bad_bins_d[2] = 1` (no end padding — the
`bad_bins_u[-i:] += 1` line put it on `bad_bins_u`) and
`bad_bins_u[2] = 1`, so bin 2 keeps its track value. -/
theorem claim6_end_padding_misdirected :
    badBinsU (fun k => decide (k = 3)) 4 3 2 = 1
    ∧ badBinsD (fun k => decide (k = 3)) 4 3 2 = 1
    ∧ (fun k => decide (k = 3)) 2 = false
    ∧ ∀ track : Nat → Option Rat,
        maskedInsTrack track (fun k => decide (k = 3)) 4 3 1 2 = track 2 := by
  refine ⟨by decide, by decide, by decide, fun track => ?_⟩
  unfold maskedInsTrack
  rw [if_neg (by decide)]

/-! ### Section 8: copy-versus-in-place behaviour of the core
operations

Python arrays are aliased references; a shallow functional model
represents each operation by a pair: the array it returns, and the
contents of the caller's buffer after the call (identical to the
returned array exactly when the source wrote into the caller's buffer
instead of a copy). -/

/-- The flat-slice diagonal write of `set_diag` on an `n x m` row-major
array: `arr.flat[max(i, -m*i) : max(0, m-i)*m : m+1] = x` (scalar
value). -/
def writeDiagFlat (n m : Nat) (arr : Nat → Nat → F) (x : F) (i : Int) :
    Nat → Nat → F :=
  fun r c =>
    let p := r * m + c
    let start := (max i (-(m : Int) * i)).toNat
    let stop := (max 0 ((m : Int) - i)).toNat * m
    if r < n ∧ c < m ∧ start ≤ p ∧ p < stop ∧ (p - start) % (m + 1) = 0 then x
    else arr r c

/-- `set_diag(arr, x, i, copy)`: the source default is `copy=False`.
First component: the returned array; second: the caller's buffer after
the call (`arr = arr.copy()` is executed only when `copy` is true, so
under the default the write lands in the caller's buffer). -/
def set_diag (n m : Nat) (arr : Nat → Nat → F) (x : F) (i : Int)
    (copy : Bool) : (Nat → Nat → F) × (Nat → Nat → F) :=
  let res := writeDiagFlat n m arr x i
  (res, if copy then arr else res)

/-- `fill_diagonal(arr, values, k, wrap=False, copy=True)` for a
nonnegative `k` and a scalar value: `start = k`, `step = m+1`,
`end = None` when wrapping else `start + m*m`.  The source default is
`copy=True`. -/
def fill_diagonal (n m : Nat) (arr : Nat → Nat → F) (x : F) (k : Nat)
    (wrap copy : Bool) : (Nat → Nat → F) × (Nat → Nat → F) :=
  let res := fun r c =>
    let p := r * m + c
    if r < n ∧ c < m ∧ k ≤ p ∧ (wrap ∨ p < k + m * m) ∧ (p - k) % (m + 1) = 0
    then x
    else arr r c
  (res, if copy then arr else res)

/-- `fill_na(arr, value, copy=True)`: replaces NaN entries; the source
default is `copy=True`. -/
def fill_na (n m : Nat) (arr : Nat → Nat → F) (value : Rat)
    (copy : Bool) : (Nat → Nat → F) × (Nat → Nat → F) :=
  let res := fun r c =>
    if r < n ∧ c < m ∧ arr r c = none then some value else arr r c
  (res, if copy then arr else res)

/-- The caller's buffer after `iterative_correction_symmetric`: the
source binds `_x = x.copy()` and every subsequent write targets `_x`,
so the caller's buffer is returned unchanged. -/
def iterative_correction_callerBuffer (N : Nat) (x : Nat → Nat → F)
    (max_iter ignore_diags : Nat) (tol : Rat) : Nat → Nat → F :=
  x

/-- The caller's buffer after `observed_over_expected`: the source
binds `data = np.array(matrix, dtype=np.double, order="C")` — a fresh
buffer — and writes only `data`. -/
def observed_over_expected_callerBuffer (N : Nat)
    (matrix : Nat → Nat → Rat) (mask : MaskArg) (dist_bins : List Nat) :
    Nat → Nat → Rat :=
  matrix

/-- The number of non-NaN entries of a list. -/
def countSome (l : List F) : Nat :=
  (l.filterMap id).length

/-- `np.nanmean`: the mean of the non-NaN entries, NaN when there are
none. -/
def nanmean (l : List F) : F :=
  let vs := l.filterMap id
  if vs.length = 0 then none
  else some (vs.foldr (· + ·) 0 / (vs.length : Rat))

def insertSorted (q : Rat) : List Rat → List Rat
  | [] => [q]
  | a :: t => if q ≤ a then q :: a :: t else a :: insertSorted q t

def sortRat (l : List Rat) : List Rat :=
  l.foldr insertSorted []

/-- `np.nanmedian`: the median of the non-NaN entries (mean of the two
middle elements for an even count), NaN when there are none. -/
def nanmedian (l : List F) : F :=
  let vs := sortRat (l.filterMap id)
  if vs.length = 0 then none
  else if vs.length % 2 = 1 then some (vs.getD (vs.length / 2) 0)
  else some ((vs.getD (vs.length / 2 - 1) 0 + vs.getD (vs.length / 2) 0) / 2)

/-- The diamond block of `insul_diamond` for bin `i`: rows
`[max(0, i-window), i)`, columns `[i, min(i+window, N))`, row-major. -/
def insulDiamondBlock (N : Nat) (mat : Nat → Nat → F) (window i : Nat) :
    List F :=
  (List.range' (i - window) (i - (i - window))).flatMap
    (fun r => (List.range' i (min (i + window) N - i)).map (fun c => mat r c))

/-- `insul_diamond(mat, window, ignore_diags)`: when `ignore_diags > 0`
the matrix is copied and `set_diag(mat, nan, d)` is applied to the copy
for `d in range(-ignore_diags, ignore_diags+1)` (writing NaN on every
diagonal within `ignore_diags`); the per-bin score is the NaN-aware
block mean divided by `np.where(norm>0, norm, 1)` and then by the
NaN-aware median of the track.  First component: the score track;
second: the caller's buffer, unchanged in either case (the writes, if
any, target the copy). -/
def insul_diamond (N : Nat) (mat : Nat → Nat → F)
    (window ignore_diags : Nat) : (Nat → F) × (Nat → Nat → F) :=
  let matD := if 0 < ignore_diags then
      (fun i j =>
        if i < N ∧ j < N ∧ i - j ≤ ignore_diags ∧ j - i ≤ ignore_diags
        then none else mat i j)
    else mat
  let score0 := fun i => nanmean (insulDiamondBlock N matD window i)
  let norm := fun i => countSome (insulDiamondBlock N matD window i)
  let score1 := fun i =>
    fdiv (score0 i) (some (if 0 < norm i then (norm i : Rat) else 1))
  let med := nanmedian ((List.range N).map score1)
  (fun i => fdiv (score1 i) med, mat)

/-- C9 (amended): the Matrix Balancer and the Distance-Decay Normalizer
copy their input on entry; the Insulation Scorer only ever writes into
a copy; `fill_diagonal` and `fill_na` leave the caller's buffer
unchanged under their defaults (`copy=True`); `set_diag` with `copy`
passed as true also copies — but the default of `set_diag` is
`copy=False`, under which the diagonal write lands in the caller's
buffer (in-place is its default, not an explicit opt-in). -/
theorem claim9_copy_defaults :
    (∀ (n m : Nat) (arr : Nat → Nat → F) (x : F) (i : Int),
      (set_diag n m arr x i true).2 = arr)
    ∧ (∀ (n m : Nat) (arr : Nat → Nat → F) (x : F) (i : Int),
      (set_diag n m arr x i false).2 = writeDiagFlat n m arr x i)
    ∧ (∀ (n m : Nat) (arr : Nat → Nat → F) (x : F) (k : Nat) (w : Bool),
      (fill_diagonal n m arr x k w true).2 = arr)
    ∧ (∀ (n m : Nat) (arr : Nat → Nat → F) (v : Rat),
      (fill_na n m arr v true).2 = arr)
    ∧ (∀ (N : Nat) (x : Nat → Nat → F) (mi ig : Nat) (tol : Rat),
      iterative_correction_callerBuffer N x mi ig tol = x)
    ∧ (∀ (N : Nat) (mat : Nat → Nat → Rat) (mask : MaskArg)
        (edges : List Nat),
      observed_over_expected_callerBuffer N mat mask edges = mat)
    ∧ (∀ (N : Nat) (mat : Nat → Nat → F) (w ig : Nat),
      (insul_diamond N mat w ig).2 = mat) :=
  ⟨fun _ _ _ _ _ => rfl, fun _ _ _ _ _ => rfl, fun _ _ _ _ _ _ => rfl,
    fun _ _ _ _ => rfl, fun _ _ _ _ _ => rfl, fun _ _ _ _ => rfl,
    fun _ _ _ _ => rfl⟩

/-- C9 counterexample: `set_diag` called with its default `copy=False`
on the 1x1 buffer `[[0]]`, writing `1` on the main diagonal, leaves the
caller's buffer holding `1` — the input was mutated, so the default of
this operation is not copy-first. -/
theorem claim9_counterexample :
    (set_diag 1 1 (fun _ _ => (some 0 : F)) (some 1) 0 false).2 0 0
      ≠ (fun _ _ => (some 0 : F)) 0 0 := by
  show writeDiagFlat 1 1 (fun _ _ => some 0) (some 1) 0 0 0 ≠ some 0
  norm_num [writeDiagFlat]
